import Mathlib

/-
Verification development for the multiplacement engine
(src/extensions/multiplacement/src/_multiplacement.c).

The C kernel is shallowly embedded:
  * machine integers become Nat (the unsigned long long arithmetic of
    `bin` never exceeds 2^64 on the paths reached before its own
    overflow guard, so Nat agrees with the C values there);
  * float scores become values of an arbitrary linear ordered field
    (instantiated at Rat for executable checks, and at Real where the
    code takes base-2 logarithms);
  * the erf-based `norm_cdf` is transcendental, so it is carried as an
    explicit function parameter `cdf`; every statement proved about the
    clamping and normalization logic holds for an arbitrary `cdf`;
  * output buffers become total functions from the written index.
-/

namespace Multiplacement

/-! ## ScoreMath: overflow-checked binomial coefficient (`bin`) -/

/-- ULONG_MAX on an LP64 platform, used by `bin`'s overflow guard. -/
def ULONG_MAX : ℕ := 2 ^ 64 - 1

/-- Loop of `bin`: state is the accumulator `c`, the loop counter `i`
(starting at 1), the decremented `n`, and the remaining iteration count.
Returns `none` when the guard `c / i > ULONG_MAX / n` trips (the C code
returns the sentinel 0). The update is the C expression
`c / i * n + c % i * n / i`. -/
def binGo (c i n : ℕ) : ℕ → Option ℕ
  | 0 => some c
  | rem + 1 =>
    if c / i > ULONG_MAX / n then none
    else binGo (c / i * n + c % i * n / i) (i + 1) (n - 1) rem

/-- `bin(n, k)` from the C source: the overflow sentinel is 0. -/
def bin (n k : ℕ) : ℕ := (binGo 1 1 n k).getD 0

/-- The C split `c / i * n + c % i * n / i` always equals `c * n / i`
in natural-number arithmetic. -/
theorem div_mul_split (c n i : ℕ) (hi : 0 < i) :
    c / i * n + c % i * n / i = c * n / i := by
  conv_rhs => rw [← Nat.div_add_mod c i]
  have h : (i * (c / i) + c % i) * n = i * (c / i * n) + c % i * n := by ring
  rw [h, Nat.mul_add_div hi]

/-- Invariant of `bin`'s loop: started from `C(N, j)` with counter `j + 1`
and running value `N - j`, either the overflow guard trips or the loop
computes the true binomial coefficient. -/
theorem binGo_some_eq (N : ℕ) :
    ∀ rem j r : ℕ, j + rem ≤ N →
      binGo (Nat.choose N j) (j + 1) (N - j) rem = some r →
      r = Nat.choose N (j + rem) := by
  intro rem
  induction rem with
  | zero => intro j r _ h; simpa [binGo] using h.symm
  | succ m ih =>
    intro j r hle h
    rw [binGo] at h
    by_cases hg : Nat.choose N j / (j + 1) > ULONG_MAX / (N - j)
    · simp [hg] at h
    · rw [if_neg hg] at h
      have hstep : Nat.choose N j / (j + 1) * (N - j) +
          Nat.choose N j % (j + 1) * (N - j) / (j + 1) = Nat.choose N (j + 1) := by
        rw [div_mul_split _ _ _ (Nat.succ_pos j)]
        rw [← Nat.choose_succ_right_eq]
        exact Nat.mul_div_cancel _ (Nat.succ_pos j)
      rw [hstep] at h
      have hsub : N - j - 1 = N - (j + 1) := by omega
      rw [hsub] at h
      have := ih (j + 1) r (by omega) h
      rw [this]
      congr 1
      omega

/-- When the guard never trips, `bin` computes the true binomial
coefficient. -/
theorem bin_eq_choose (n k : ℕ) (hk : k ≤ n) (h : binGo 1 1 n k ≠ none) :
    bin n k = Nat.choose n k := by
  cases hsome : binGo 1 1 n k with
  | none => exact absurd hsome h
  | some r =>
    have h0 : binGo (Nat.choose n 0) (0 + 1) (n - 0) k = some r := by
      simpa using hsome
    have := binGo_some_eq n k 0 r (by omega) h0
    simp [bin, hsome, this]

/-- Claim C7: the overflow-checked binomial coefficient is symmetric,
`bin n k = bin n (n - k)`, whenever `0 ≤ k ≤ n` and neither evaluation
hits the overflow guard; and `bin 1000 500` hits the guard and returns
the sentinel 0. -/
theorem C7_bin_symm (n k : ℕ) (hk : k ≤ n)
    (h1 : binGo 1 1 n k ≠ none) (h2 : binGo 1 1 n (n - k) ≠ none) :
    bin n k = bin n (n - k) ∧ bin 1000 500 = 0 := by
  constructor
  · rw [bin_eq_choose n k hk h1, bin_eq_choose n (n - k) (Nat.sub_le n k) h2]
    exact (Nat.choose_symm hk).symm
  · decide

/-- Witness for C7 at `n = 5`, `k = 2` (no overflow on either side). -/
theorem C7_bin_symm_witness :
    (2 ≤ 5 ∧ binGo 1 1 5 2 ≠ none ∧ binGo 1 1 5 3 ≠ none) ∧
      (bin 5 2 = bin 5 3 ∧ bin 1000 500 = 0) :=
  ⟨by decide, C7_bin_symm 5 2 (by decide) (by decide) (by decide)⟩

/-! ## ScoreMath: statistical numerator and uniform denominator -/

variable {α : Type*} [LinearOrderedField α]

/-- `norm_pf` from the C source, with the erf-based `norm_cdf` carried
as the parameter `cdf` (taking `x`, `mu`, `sigma`). When `sigma ≠ 0`
it is the discrete point mass `cdf (x+0.5) - cdf (x-0.5)`; when
`sigma = 0` it degenerates to the indicator of `x = mu`. -/
def norm_pf (cdf : α → α → α → α) (x mu sigma : α) : α :=
  if sigma ≠ 0 then cdf (x + 1/2) mu sigma - cdf (x - 1/2) mu sigma
  else if x = mu then 1 else 0

/-- `get_numerator` from the C source: the raw point mass, and, when
`sigma ≠ 0`, the normalizing mass `auc` over `[0, dna_length - 1]`
floored at 0.000001 and the numerator floored at 0.00001 before the
division. -/
def get_numerator (cdf : α → α → α → α) (dna_length : ℕ) (x mu sigma : α) : α :=
  let numerator := norm_pf cdf x mu sigma
  if sigma = 0 then numerator
  else
    let auc := cdf ((dna_length : α) - 1) mu sigma - cdf 0 mu sigma
    let auc2 := if auc < 1/1000000 then 1/1000000 else auc
    let num2 := if numerator < 1/100000 then 1/100000 else numerator
    num2 / auc2

/-- `get_denominator` from the C source: `bin(L-d, N-1) / bin(L, N)`
when `1 ≤ d ≤ L - N + 1` (the comparison is carried out over ℤ, as the
C code compares ints), and the constant 0.0001 otherwise. Division by
zero (the float division the C code performs when `bin` returns its
overflow sentinel 0) is the field's junk value 0. -/
def get_denominator (d N L : ℕ) : α :=
  if 1 ≤ d ∧ (d : ℤ) ≤ (L : ℤ) - (N : ℤ) + 1 then
    (bin (L - d) (N - 1) : α) / (bin L N : α)
  else 1/10000

/-- Strict positivity of `get_numerator` when `sigma ≠ 0`, for every
`cdf`: both floors guarantee a positive quotient. -/
theorem get_numerator_pos (cdf : α → α → α → α) (dna_length : ℕ)
    (x mu sigma : α) (hs : sigma ≠ 0) :
    0 < get_numerator cdf dna_length x mu sigma := by
  rw [get_numerator, if_neg hs]
  apply div_pos
  · by_cases h : norm_pf cdf x mu sigma < 1/100000
    · rw [if_pos h]; norm_num
    · rw [if_neg h]
      have : (0 : α) < 1/100000 := by norm_num
      linarith [not_lt.mp h]
  · by_cases h : cdf ((dna_length : α) - 1) mu sigma - cdf 0 mu sigma < 1/1000000
    · rw [if_pos h]; norm_num
    · rw [if_neg h]
      have : (0 : α) < 1/1000000 := by norm_num
      linarith [not_lt.mp h]

/-- Claim C3 (amended): when `sigma ≠ 0` the result is strictly
positive for every `cdf`; when `sigma = 0` the raw point mass is
returned unchanged; and the floors actually applied before the division
are 0.00001 on the numerator and 0.000001 (not 0.0001) on the
normalizing mass, so that when both raw values are below their floors
the result is exactly `0.00001 / 0.000001`. -/
theorem C3_numerator_floors (cdf : α → α → α → α) (dna_length : ℕ)
    (x mu sigma : α) :
    (sigma ≠ 0 → 0 < get_numerator cdf dna_length x mu sigma) ∧
    (sigma = 0 → get_numerator cdf dna_length x mu sigma = norm_pf cdf x mu sigma) ∧
    (sigma ≠ 0 → norm_pf cdf x mu sigma < 1/100000 →
      cdf ((dna_length : α) - 1) mu sigma - cdf 0 mu sigma < 1/1000000 →
      get_numerator cdf dna_length x mu sigma = (1/100000) / (1/1000000)) := by
  refine ⟨fun hs => get_numerator_pos cdf dna_length x mu sigma hs, ?_, ?_⟩
  · intro hs; rw [get_numerator, if_pos hs]
  · intro hs hnum hauc
    rw [get_numerator, if_neg hs]
    simp only [if_pos hnum, if_pos hauc]

/-- Definition following the words of claim C3 (and spec section 4.1),
which state that the normalizing mass is floored at 1e-4: used only to
exhibit the divergence from the source's `get_numerator`. -/
def get_numerator_claimed (cdf : α → α → α → α) (dna_length : ℕ)
    (x mu sigma : α) : α :=
  let numerator := norm_pf cdf x mu sigma
  if sigma = 0 then numerator
  else
    let auc := cdf ((dna_length : α) - 1) mu sigma - cdf 0 mu sigma
    let auc2 := if auc < 1/10000 then 1/10000 else auc
    let num2 := if numerator < 1/100000 then 1/100000 else numerator
    num2 / auc2

/-- Counterexample to claim C3 as stated: with the concrete cdf
`x / 100000`, dna_length 2, distance 0, mean 0, sigma 1, the raw mass
and the normalizing mass are both 1/100000; the code divides by the
un-floored mass and returns 1, while flooring the mass at 1e-4 as
claimed would return 1/10. -/
theorem C3_numerator_floors_counterexample :
    get_numerator (fun x _ _ => x / 100000) 2 0 0 (1 : ℚ) = 1 ∧
    get_numerator_claimed (fun x _ _ => x / 100000) 2 0 0 (1 : ℚ) = 1/10 ∧
    (1 : ℚ) ≠ 1/10 := by
  refine ⟨?_, ?_, by norm_num⟩
  · rw [get_numerator]; norm_num [norm_pf]
  · rw [get_numerator_claimed]; norm_num [norm_pf]

/-- Witness for C3 (amended) at a concrete input with `sigma = 1 ≠ 0`
and at one with `sigma = 0`. -/
theorem C3_numerator_floors_witness :
    ((1 : ℚ) ≠ 0 ∧
      0 < get_numerator (fun x _ _ => x / 100000) 2 0 0 (1 : ℚ)) ∧
    get_numerator (fun x _ _ => x / 100000) 2 0 0 (0 : ℚ) =
      norm_pf (fun x _ _ => x / 100000) 0 0 (0 : ℚ) :=
  ⟨⟨by norm_num,
    (C3_numerator_floors (fun x _ _ => x / 100000) 2 0 0 (1 : ℚ)).1 (by norm_num)⟩,
   (C3_numerator_floors (fun x _ _ => x / 100000) 2 0 0 (0 : ℚ)).2.1 rfl⟩

/-- Claim C4 (amended): inside the feasible band `1 ≤ d ≤ L - N + 1`,
and when neither `bin` hits its overflow guard, the result is the true
ratio `C(L-d, N-1) / C(L, N)`; outside the band it is the constant
0.0001; but when `bin L N` returns its overflow sentinel 0 inside the
band, the division is performed with the sentinel anyway (yielding the
junk value 0 of field division by zero, a float division by zero in C),
not the 0.0001 floor. -/
theorem C4_denominator (d N L : ℕ) :
    ((1 ≤ d ∧ (d : ℤ) ≤ (L : ℤ) - (N : ℤ) + 1) →
      binGo 1 1 (L - d) (N - 1) ≠ none → binGo 1 1 L N ≠ none →
      get_denominator (α := α) d N L =
        (Nat.choose (L - d) (N - 1) : α) / (Nat.choose L N : α)) ∧
    (¬(1 ≤ d ∧ (d : ℤ) ≤ (L : ℤ) - (N : ℤ) + 1) →
      get_denominator (α := α) d N L = 1/10000) ∧
    ((1 ≤ d ∧ (d : ℤ) ≤ (L : ℤ) - (N : ℤ) + 1) → bin L N = 0 →
      get_denominator (α := α) d N L = 0) := by
  refine ⟨fun hrange hb1 hb2 => ?_, fun hrange => ?_, fun hrange hz => ?_⟩
  · rw [get_denominator, if_pos hrange]
    rw [bin_eq_choose (L - d) (N - 1) (by omega) hb1, bin_eq_choose L N (by omega) hb2]
  · rw [get_denominator, if_neg hrange]
  · rw [get_denominator, if_pos hrange, hz]
    simp

/-- Counterexample to claim C4 as stated: at `d = 1`, `N = 500`,
`L = 1000` the band condition holds and `bin` overflows in the
denominator position, but the code's result is not the claimed 0.0001
floor (nor the true positive ratio): the embedded division by the
sentinel gives 0. -/
theorem C4_denominator_counterexample :
    get_denominator (α := ℚ) 1 500 1000 = 0 ∧
    (0 : ℚ) < (Nat.choose 999 499 : ℚ) / (Nat.choose 1000 500 : ℚ) ∧
    (0 : ℚ) ≠ 1/10000 := by
  refine ⟨?_, ?_, by norm_num⟩
  · rw [get_denominator, if_pos (by constructor <;> norm_num)]
    have h1 : bin 999 499 = 0 := by decide
    have h2 : bin 1000 500 = 0 := by decide
    norm_num [h1, h2]
  · apply div_pos
    · exact_mod_cast Nat.choose_pos (by norm_num)
    · exact_mod_cast Nat.choose_pos (by norm_num)

/-- Witness for C4 (amended): the ratio branch at `(d, N, L) = (1, 2, 4)`,
the out-of-band branch at `(0, 2, 4)`, and the sentinel branch at
`(1, 500, 1000)`. -/
theorem C4_denominator_witness :
    get_denominator (α := ℚ) 1 2 4 = (Nat.choose 3 1 : ℚ) / (Nat.choose 4 2 : ℚ) ∧
    get_denominator (α := ℚ) 0 2 4 = 1/10000 ∧
    get_denominator (α := ℚ) 1 500 1000 = 0 :=
  ⟨(C4_denominator 1 2 4).1 (by constructor <;> norm_num) (by decide) (by decide),
   (C4_denominator 0 2 4).2.1 (by norm_num),
   (C4_denominator 1 500 1000).2.2 (by constructor <;> norm_num) (by decide)⟩

/-! ## PlacementSolver: `max_index`, the DP inner loop and the stages -/

/-- Loop of `max_index` after processing indices `0..m`: the running
index is replaced only on a strictly greater score, so the first
maximum encountered is kept. -/
def max_idx_go (f : ℕ → α) : ℕ → ℕ
  | 0 => 0
  | m + 1 => if f (max_idx_go f m) < f (m + 1) then m + 1 else max_idx_go f m

/-- `max_index(arr, size)` from the C source (first arg-max of the
first `size` entries; 0 when `size = 0`). -/
def max_index (f : ℕ → α) (size : ℕ) : ℕ := max_idx_go f (size - 1)

theorem max_idx_go_le (f : ℕ → α) (m : ℕ) : max_idx_go f m ≤ m := by
  induction m with
  | zero => simp [max_idx_go]
  | succ k ih =>
    rw [max_idx_go]
    split
    · exact le_refl _
    · omega

theorem max_idx_go_ge (f : ℕ → α) (m : ℕ) :
    ∀ i ≤ m, f i ≤ f (max_idx_go f m) := by
  induction m with
  | zero => intro i hi; interval_cases i; simp [max_idx_go]
  | succ k ih =>
    intro i hi
    rw [max_idx_go]
    split
    · rename_i hlt
      rcases Nat.lt_or_ge i (k + 1) with h | h
      · exact le_trans (ih i (by omega)) (le_of_lt hlt)
      · have : i = k + 1 := by omega
        rw [this]
    · rename_i hlt
      rcases Nat.lt_or_ge i (k + 1) with h | h
      · exact ih i (by omega)
      · have : i = k + 1 := by omega
        rw [this]; exact not_lt.mp hlt

theorem max_index_lt (f : ℕ → α) (size : ℕ) (h : 1 ≤ size) :
    max_index f size < size := by
  have := max_idx_go_le f (size - 1)
  rw [max_index]; omega

theorem max_index_ge (f : ℕ → α) (size : ℕ) (i : ℕ) (hi : i < size) :
    f i ≤ f (max_index f size) :=
  max_idx_go_ge f (size - 1) i (by omega)

/-- The candidate cumulative score examined by the DP inner loop for
ending position `j` and starting position `k`:
`alignments[k] + gap score of (j - k) + score_matrix[i][j]`. -/
def candScore (prev : ℕ → α) (gsc : ℕ → α) (s : α) (j k : ℕ) : α :=
  prev k + gsc (j - k) + s

/-- The DP inner loop over starting positions `k = 0..m` for a fixed
ending position `j` (the C code runs it with `m = j`): `k = 0` seeds
the running maximum with recorded gap `j`; a later candidate replaces
it only when strictly greater, recording gap `j - k`.  Returns
(running maximum, recorded gap). -/
def inner_go (prev : ℕ → α) (gsc : ℕ → α) (s : α) (j : ℕ) : ℕ → α × ℕ
  | 0 => (candScore prev gsc s j 0, j)
  | k + 1 =>
    if (inner_go prev gsc s j k).1 < candScore prev gsc s j (k + 1) then
      (candScore prev gsc s j (k + 1), j - (k + 1))
    else inner_go prev gsc s j k

theorem inner_go_gap_le (prev : ℕ → α) (gsc : ℕ → α) (s : α) (j m : ℕ) :
    (inner_go prev gsc s j m).2 ≤ j := by
  induction m with
  | zero => simp [inner_go]
  | succ k ih =>
    rw [inner_go]
    split
    · simp
    · exact ih

theorem inner_go_le (prev : ℕ → α) (gsc : ℕ → α) (s : α) (j m : ℕ) :
    ∀ k ≤ m, candScore prev gsc s j k ≤ (inner_go prev gsc s j m).1 := by
  induction m with
  | zero => intro k hk; interval_cases k; simp [inner_go]
  | succ m ih =>
    intro k hk
    rw [inner_go]
    split
    · rename_i hlt
      rcases Nat.lt_or_ge k (m + 1) with h | h
      · exact le_trans (ih k (by omega)) (le_of_lt hlt)
      · have : k = m + 1 := by omega
        rw [this]
    · rename_i hlt
      rcases Nat.lt_or_ge k (m + 1) with h | h
      · exact ih k (by omega)
      · have : k = m + 1 := by omega
        rw [this]; exact not_lt.mp hlt

theorem inner_go_attained (prev : ℕ → α) (gsc : ℕ → α) (s : α) (j m : ℕ) :
    ∃ k ≤ m, (inner_go prev gsc s j m).2 = j - k ∧
      (inner_go prev gsc s j m).1 = candScore prev gsc s j k := by
  induction m with
  | zero => exact ⟨0, le_refl 0, by simp [inner_go], by simp [inner_go]⟩
  | succ m ih =>
    rw [inner_go]
    split
    · exact ⟨m + 1, le_refl _, rfl, rfl⟩
    · obtain ⟨k, hk, h2, h1⟩ := ih
      exact ⟨k, by omega, h2, h1⟩

theorem inner_go_first (prev : ℕ → α) (gsc : ℕ → α) (s : α) (j m : ℕ)
    (hm : m ≤ j) :
    ∀ k, k < j - (inner_go prev gsc s j m).2 →
      candScore prev gsc s j k < (inner_go prev gsc s j m).1 := by
  induction m with
  | zero => intro k hk; simp [inner_go] at hk
  | succ m ih =>
    intro k hk
    rw [inner_go] at hk ⊢
    split
    · rename_i hlt
      rw [if_pos hlt] at hk
      have hkm : k < m + 1 := by omega
      exact lt_of_le_of_lt (inner_go_le prev gsc s j m k (by omega)) hlt
    · rename_i hlt
      rw [if_neg hlt] at hk
      exact ih (by omega) k hk

/-- The cumulative table of `fill_traceback_matrix`: `alignments S gsc i j`
is the value of the C array `alignments[j]` after stage `i` of the DP
(`S i j` is `score_matrix[i * num_alignments + j]`, `gsc c gap` is the
connector score `get_score(..., gap, ..., c, ...)` for connector `c`).
Stage 0 copies row 0 of the score matrix; stage `i + 1` commits the
inner loop's running maximum at every ending position. -/
def alignments (S : ℕ → ℕ → α) (gsc : ℕ → ℕ → α) : ℕ → ℕ → α
  | 0 => S 0
  | i + 1 => fun j =>
    (inner_go (alignments S gsc i) (gsc i) (S (i + 1) j) j j).1

/-- The gap-choice table of `fill_traceback_matrix`:
`gap_alignments S gsc i j` is `gap_alignments[i * num_alignments + j]`,
the gap length committed together with `alignments (i+1) j`. -/
def gap_alignments (S : ℕ → ℕ → α) (gsc : ℕ → ℕ → α) (i j : ℕ) : ℕ :=
  (inner_go (alignments S gsc i) (gsc i) (S (i + 1) j) j j).2

theorem alignments_succ (S : ℕ → ℕ → α) (gsc : ℕ → ℕ → α) (i j : ℕ) :
    alignments S gsc (i + 1) j =
      (inner_go (alignments S gsc i) (gsc i) (S (i + 1) j) j j).1 := rfl

theorem gap_alignments_le (S : ℕ → ℕ → α) (gsc : ℕ → ℕ → α) (i j : ℕ) :
    gap_alignments S gsc i j ≤ j :=
  inner_go_gap_le _ _ _ j j

/-- The committed cumulative score is attained at the recorded gap. -/
theorem alignments_succ_eq (S : ℕ → ℕ → α) (gsc : ℕ → ℕ → α) (i j : ℕ) :
    alignments S gsc (i + 1) j =
      alignments S gsc i (j - gap_alignments S gsc i j) +
        gsc i (gap_alignments S gsc i j) + S (i + 1) j := by
  obtain ⟨k, hk, h2, h1⟩ :=
    inner_go_attained (alignments S gsc i) (gsc i) (S (i + 1) j) j j
  have hgap : gap_alignments S gsc i j = j - k := h2
  have hsub : j - gap_alignments S gsc i j = k := by omega
  rw [alignments_succ, h1, candScore, hsub, hgap]

/-- Claim C2 (amended): at every stage `i + 1` and ending position `j`,
the committed cumulative score `alignments (i+1) j` is the maximum over
`k ≤ j` of `alignments i k + gsc i (j - k) + S (i+1) j`; on an exact
score tie the first `k` encountered wins (everything strictly before
the winning `k` is strictly smaller), which means the LARGER gap length
`j - k` is the one recorded in the gap-choice table (every maximizing
`k` has `j - k` at most the recorded gap). -/
theorem C2_dp_inner_max (S : ℕ → ℕ → α) (gsc : ℕ → ℕ → α) (i j : ℕ) :
    (∀ k ≤ j, alignments S gsc i k + gsc i (j - k) + S (i + 1) j ≤
      alignments S gsc (i + 1) j) ∧
    gap_alignments S gsc i j ≤ j ∧
    (alignments S gsc i (j - gap_alignments S gsc i j) +
      gsc i (gap_alignments S gsc i j) + S (i + 1) j =
        alignments S gsc (i + 1) j) ∧
    (∀ k, k < j - gap_alignments S gsc i j →
      alignments S gsc i k + gsc i (j - k) + S (i + 1) j <
        alignments S gsc (i + 1) j) ∧
    (∀ k ≤ j, alignments S gsc i k + gsc i (j - k) + S (i + 1) j =
      alignments S gsc (i + 1) j → j - k ≤ gap_alignments S gsc i j) := by
  refine ⟨?_, gap_alignments_le S gsc i j, (alignments_succ_eq S gsc i j).symm,
    ?_, ?_⟩
  · intro k hk
    have := inner_go_le (alignments S gsc i) (gsc i) (S (i + 1) j) j j k hk
    rw [alignments_succ]
    exact this
  · intro k hk
    have := inner_go_first (alignments S gsc i) (gsc i) (S (i + 1) j)
      j j (le_refl j) k hk
    rw [alignments_succ]
    exact this
  · intro k hk heq
    by_contra hgt
    have hlt : k < j - gap_alignments S gsc i j := by
      have := gap_alignments_le S gsc i j
      omega
    have := inner_go_first (alignments S gsc i) (gsc i) (S (i + 1) j)
      j j (le_refl j) k hlt
    rw [← alignments_succ] at this
    exact absurd heq (ne_of_lt this)

/-- Counterexample to claim C2 as stated: with a flat table
(`alignments 0 ≡ 0`), zero gap scores and zero recognizer scores, at
stage 1 and ending position `j = 1` both starting positions `k = 0` and
`k = 1` tie exactly, and the recorded gap is 1 (the larger gap, coming
from the first `k = 0`), not the smaller tied gap 0 as claimed. -/
theorem C2_dp_inner_max_counterexample :
    ((fun _ _ => (0 : ℚ)) 1 0 + (fun _ _ => (0 : ℚ)) 0 (1 - 0) +
        (fun _ _ => (0 : ℚ)) 1 1 =
      (fun _ _ => (0 : ℚ)) 1 1 + (fun _ _ => (0 : ℚ)) 0 (1 - 1) +
        (fun _ _ => (0 : ℚ)) 1 1) ∧
    gap_alignments (fun _ _ => (0 : ℚ)) (fun _ _ => (0 : ℚ)) 0 1 = 1 ∧
    gap_alignments (fun _ _ => (0 : ℚ)) (fun _ _ => (0 : ℚ)) 0 1 ≠ 0 := by
  refine ⟨by norm_num, ?_, ?_⟩ <;>
    norm_num [gap_alignments, inner_go, alignments, candScore]

/-- Witness for C2 (amended) at a concrete flat instance. -/
theorem C2_dp_inner_max_witness :
    ((fun _ _ => (0 : ℚ)) 0 0 + (fun _ _ => (0 : ℚ)) 0 (1 - 0) +
        (fun _ _ => (0 : ℚ)) 1 1 ≤
      alignments (fun _ _ => (0 : ℚ)) (fun _ _ => (0 : ℚ)) 1 1) ∧
    (alignments (fun _ _ => (0 : ℚ)) (fun _ _ => (0 : ℚ)) 0
        (1 - gap_alignments (fun _ _ => (0 : ℚ)) (fun _ _ => (0 : ℚ)) 0 1) +
      (fun _ _ => (0 : ℚ)) 0
        (gap_alignments (fun _ _ => (0 : ℚ)) (fun _ _ => (0 : ℚ)) 0 1) +
      (fun _ _ => (0 : ℚ)) 1 1 =
        alignments (fun _ _ => (0 : ℚ)) (fun _ _ => (0 : ℚ)) 1 1) :=
  ⟨(C2_dp_inner_max (fun _ _ => (0 : ℚ)) (fun _ _ => (0 : ℚ)) 0 1).1 0
      (by omega),
   (C2_dp_inner_max (fun _ _ => (0 : ℚ)) (fun _ _ => (0 : ℚ)) 0 1).2.2.1⟩

/-! ## OffsetGeometry -/

/-- `get_forward_offset(index, cols, num_rec)` from the C source: sum
of the widths of the recognizers before `index`. -/
def get_forward_offset (cols : ℕ → ℕ) (index : ℕ) : ℕ :=
  ∑ t in Finset.range index, cols t

/-- `get_reverse_offset(index, cols, num_rec)` from the C source: sum
of the widths of the recognizers at or after `index`, minus 1. -/
def get_reverse_offset (cols : ℕ → ℕ) (index num_rec : ℕ) : ℕ :=
  (∑ t in Finset.Ico index num_rec, cols t) - 1

/-! ## TracebackReconstructor -/

/-- The traceback starting index: the (first) arg-max position of the
final cumulative table, `max_index(rec_alignments, num_alignments)`. -/
def tb_index (S gsc : ℕ → ℕ → α) (N A : ℕ) : ℕ :=
  max_index (alignments S gsc (N - 1)) A

/-- The backward walk of `traceback`: `pos_aux d` is the value of the C
variable `index` after `d` subtractions of the recorded gap, starting
from `tb_index`; the gap-choice row consulted at distance `d` from the
top is `N - 2 - d`. -/
def pos_aux (S gsc : ℕ → ℕ → α) (N A : ℕ) : ℕ → ℕ
  | 0 => tb_index S gsc N A
  | d + 1 => pos_aux S gsc N A d -
      gap_alignments S gsc (N - 2 - d) (pos_aux S gsc N A d)

/-- `rec_pos i`: the column-normalized position of recognizer `i` in
the reconstructed placement (`i = N - 1` is the traceback start). -/
def rec_pos (S gsc : ℕ → ℕ → α) (N A : ℕ) (i : ℕ) : ℕ :=
  pos_aux S gsc N A (N - 1 - i)

/-- The `con_lengths` output buffer of `traceback`: slot `t + 1` holds
the recorded gap of connector `t`, read from the gap-choice table at
recognizer `t + 1`'s position; slot 0 holds the residual index
`index - con_lengths[1]` left after the walk (the position of
recognizer 0). -/
def con_lengths (S gsc : ℕ → ℕ → α) (N A : ℕ) : ℕ → ℕ
  | 0 => rec_pos S gsc N A 1 - gap_alignments S gsc 0 (rec_pos S gsc N A 1)
  | t + 1 => gap_alignments S gsc t (rec_pos S gsc N A (t + 1))

/-- The running `gapOffset` of `traceback`'s final loop after step `i`:
the cumulative sum of `con_lengths[0..i]`. -/
def gap_offset (S gsc : ℕ → ℕ → α) (N A : ℕ) (i : ℕ) : ℕ :=
  ∑ t in Finset.range (i + 1), con_lengths S gsc N A t

/-- The `rec_scores` output buffer written by `traceback`: slots
`0..N-1` hold `score_matrix[i][gapOffset]`; slot `N` holds the
cumulative best score `rec_alignments[index]`. -/
def rec_scores (S gsc : ℕ → ℕ → α) (N A : ℕ) (i : ℕ) : α :=
  if i = N then alignments S gsc (N - 1) (tb_index S gsc N A)
  else S i (gap_offset S gsc N A i)

/-- The `con_scores` output buffer written by `traceback`: connector
`c`'s score recomputed from the recovered gap `con_lengths[c + 1]`. -/
def con_scores (S gsc : ℕ → ℕ → α) (N A : ℕ) (c : ℕ) : α :=
  gsc c (con_lengths S gsc N A (c + 1))

theorem rec_pos_step (S gsc : ℕ → ℕ → α) (N A : ℕ) (i : ℕ)
    (hi : i + 1 ≤ N - 1) :
    rec_pos S gsc N A i = rec_pos S gsc N A (i + 1) -
      gap_alignments S gsc i (rec_pos S gsc N A (i + 1)) := by
  show pos_aux S gsc N A (N - 1 - i) =
    pos_aux S gsc N A (N - 1 - (i + 1)) -
      gap_alignments S gsc i (pos_aux S gsc N A (N - 1 - (i + 1)))
  have h1 : N - 1 - i = (N - 2 - i) + 1 := by omega
  rw [h1, pos_aux]
  have h2 : N - 2 - (N - 2 - i) = i := by omega
  have h3 : N - 2 - i = N - 1 - (i + 1) := by omega
  rw [h2, h3]

theorem con_lengths_zero (S gsc : ℕ → ℕ → α) (N A : ℕ) (hN : 2 ≤ N) :
    con_lengths S gsc N A 0 = rec_pos S gsc N A 0 := by
  rw [rec_pos_step S gsc N A 0 (by omega)]
  rfl

theorem gap_offset_eq_rec_pos (S gsc : ℕ → ℕ → α) (N A : ℕ) (hN : 2 ≤ N) :
    ∀ i, i ≤ N - 1 → gap_offset S gsc N A i = rec_pos S gsc N A i := by
  intro i
  induction i with
  | zero =>
    intro _
    show (∑ t in Finset.range 1, con_lengths S gsc N A t) = _
    rw [Finset.sum_range_one]
    exact con_lengths_zero S gsc N A hN
  | succ m ih =>
    intro hm
    have hsum : gap_offset S gsc N A (m + 1) =
        gap_offset S gsc N A m + con_lengths S gsc N A (m + 1) := by
      show (∑ t in Finset.range (m + 1 + 1), con_lengths S gsc N A t) = _
      exact Finset.sum_range_succ _ _
    have h2 := rec_pos_step S gsc N A m (by omega)
    have h3 := gap_alignments_le S gsc m (rec_pos S gsc N A (m + 1))
    have h4 : con_lengths S gsc N A (m + 1) =
        gap_alignments S gsc m (rec_pos S gsc N A (m + 1)) := rfl
    rw [hsum, ih (by omega), h2, h4]
    omega

/-- Telescoping identity: the cumulative score at the reconstructed
position of recognizer `m` is the sum of the recognizer scores at the
reconstructed positions plus the connector scores at the recovered
gaps, up to stage `m`. -/
theorem alignments_telescope (S gsc : ℕ → ℕ → α) (N A : ℕ) (hN : 2 ≤ N) :
    ∀ m, m ≤ N - 1 →
      alignments S gsc m (rec_pos S gsc N A m) =
        (∑ i in Finset.range (m + 1), S i (rec_pos S gsc N A i)) +
          ∑ c in Finset.range m, gsc c (con_lengths S gsc N A (c + 1)) := by
  intro m
  induction m with
  | zero =>
    intro _
    simp [alignments]
  | succ m ih =>
    intro hm
    have hstep := alignments_succ_eq S gsc m (rec_pos S gsc N A (m + 1))
    have hG : con_lengths S gsc N A (m + 1) =
        gap_alignments S gsc m (rec_pos S gsc N A (m + 1)) := rfl
    have hprev : rec_pos S gsc N A (m + 1) -
        gap_alignments S gsc m (rec_pos S gsc N A (m + 1)) =
          rec_pos S gsc N A m := (rec_pos_step S gsc N A m (by omega)).symm
    rw [hstep, hprev, ih (by omega),
      Finset.sum_range_succ (fun i => S i (rec_pos S gsc N A i)) (m + 1),
      Finset.sum_range_succ (fun c => gsc c (con_lengths S gsc N A (c + 1))) m,
      hG]
    ring

theorem rec_pos_top (S gsc : ℕ → ℕ → α) (N A : ℕ) :
    rec_pos S gsc N A (N - 1) = tb_index S gsc N A := by
  show pos_aux S gsc N A (N - 1 - (N - 1)) = _
  rw [Nat.sub_self]
  rfl

/-- Claim C5: for `N ≥ 2`, the sum of the `N` reported recognizer
scores plus the `N - 1` reported connector scores equals the global
optimum reported by the DP (the cumulative best score written at slot
`N`); the embedding is exact, so equality holds with no tolerance. -/
theorem C5_score_sum (S gsc : ℕ → ℕ → α) (N A : ℕ) (hN : 2 ≤ N) :
    (∑ i in Finset.range N, rec_scores S gsc N A i) +
      (∑ c in Finset.range (N - 1), con_scores S gsc N A c) =
    rec_scores S gsc N A N := by
  have htel := alignments_telescope S gsc N A hN (N - 1) (le_refl _)
  have htop := rec_pos_top S gsc N A
  have hNN : N - 1 + 1 = N := by omega
  have hrhs : rec_scores S gsc N A N =
      (∑ i in Finset.range N, S i (rec_pos S gsc N A i)) +
        ∑ c in Finset.range (N - 1), gsc c (con_lengths S gsc N A (c + 1)) := by
    rw [rec_scores, if_pos rfl, ← htop, htel, hNN]
  rw [hrhs]
  congr 1
  · apply Finset.sum_congr rfl
    intro i hi
    rw [Finset.mem_range] at hi
    rw [rec_scores, if_neg (by omega),
      gap_offset_eq_rec_pos S gsc N A hN i (by omega)]

/-- Witness for C5 at `N = 2`, `A = 2` with concrete rational scores. -/
theorem C5_score_sum_witness :
    2 ≤ 2 ∧
    (∑ i in Finset.range 2,
        rec_scores (fun i j => ((i + j : ℕ) : ℚ)) (fun c g => ((c + g : ℕ) : ℚ)) 2 2 i) +
      (∑ c in Finset.range 1,
        con_scores (fun i j => ((i + j : ℕ) : ℚ)) (fun c g => ((c + g : ℕ) : ℚ)) 2 2 c) =
      rec_scores (fun i j => ((i + j : ℕ) : ℚ)) (fun c g => ((c + g : ℕ) : ℚ)) 2 2 2 :=
  ⟨by norm_num,
   C5_score_sum (fun i j => ((i + j : ℕ) : ℚ)) (fun c g => ((c + g : ℕ) : ℚ)) 2 2
     (by norm_num)⟩

/-- Claim C6: connector lengths are natural numbers (hence non-negative
integers), and the sum of all recognizer widths plus the sum of the
`N - 1` reported connector lengths is at most the sequence length `L`,
where the number of alignments is `L - forward_offset(0) -
reverse_offset(0)` exactly as computed by `py_calculate`. -/
theorem C6_lengths_bound (S gsc : ℕ → ℕ → α) (w : ℕ → ℕ) (L N : ℕ)
    (hN : 2 ≤ N) (hw : ∀ i < N, 1 ≤ w i)
    (hL : (∑ i in Finset.range N, w i) ≤ L) :
    (∀ t, 0 ≤ (con_lengths S gsc N
        (L - get_forward_offset w 0 - get_reverse_offset w 0 N) t : ℤ)) ∧
    (∑ i in Finset.range N, w i) +
      (∑ t in Finset.Icc 1 (N - 1), con_lengths S gsc N
        (L - get_forward_offset w 0 - get_reverse_offset w 0 N) t) ≤ L := by
  constructor
  · intro t
    exact Int.natCast_nonneg _
  · have hW1 : 1 ≤ ∑ i in Finset.range N, w i := by
      have h0 : w 0 ≤ ∑ i in Finset.range N, w i :=
        Finset.single_le_sum (fun i _ => Nat.zero_le (w i))
          (Finset.mem_range.mpr (by omega))
      have := hw 0 (by omega)
      omega
    have hfo : get_forward_offset w 0 = 0 := by
      simp [get_forward_offset]
    have hro : get_reverse_offset w 0 N = (∑ i in Finset.range N, w i) - 1 := by
      rw [get_reverse_offset, ← Finset.range_eq_Ico]
    have hsum : (∑ t in Finset.range N, con_lengths S gsc N
        (L - get_forward_offset w 0 - get_reverse_offset w 0 N) t) =
        rec_pos S gsc N (L - get_forward_offset w 0 - get_reverse_offset w 0 N) (N - 1) := by
      have hNN : N - 1 + 1 = N := by omega
      rw [← gap_offset_eq_rec_pos S gsc N _ hN (N - 1) (le_refl _), gap_offset, hNN]
    have htb : rec_pos S gsc N (L - get_forward_offset w 0 - get_reverse_offset w 0 N) (N - 1) ≤
        (L - get_forward_offset w 0 - get_reverse_offset w 0 N) - 1 := by
      rw [rec_pos_top]
      exact max_idx_go_le _ _
    have hsub : (∑ t in Finset.Icc 1 (N - 1), con_lengths S gsc N
        (L - get_forward_offset w 0 - get_reverse_offset w 0 N) t) ≤
        ∑ t in Finset.range N, con_lengths S gsc N
          (L - get_forward_offset w 0 - get_reverse_offset w 0 N) t := by
      apply Finset.sum_le_sum_of_subset
      intro t ht
      rw [Finset.mem_Icc] at ht
      rw [Finset.mem_range]
      omega
    calc (∑ i in Finset.range N, w i) +
          (∑ t in Finset.Icc 1 (N - 1), con_lengths S gsc N
            (L - get_forward_offset w 0 - get_reverse_offset w 0 N) t)
        ≤ (∑ i in Finset.range N, w i) +
          (∑ t in Finset.range N, con_lengths S gsc N
            (L - get_forward_offset w 0 - get_reverse_offset w 0 N) t) :=
          Nat.add_le_add_left hsub _
      _ = (∑ i in Finset.range N, w i) +
          rec_pos S gsc N (L - get_forward_offset w 0 - get_reverse_offset w 0 N) (N - 1) := by
          rw [hsum]
      _ ≤ (∑ i in Finset.range N, w i) +
          ((L - get_forward_offset w 0 - get_reverse_offset w 0 N) - 1) :=
          Nat.add_le_add_left htb _
      _ ≤ L := by
          rw [hfo, hro]
          omega

/-- Witness for C6 at `N = 2`, unit widths, `L = 4`. -/
theorem C6_lengths_bound_witness :
    (2 ≤ 2 ∧ (∑ i in Finset.range 2, (fun _ => 1 : ℕ → ℕ) i) ≤ 4) ∧
    (∑ i in Finset.range 2, (fun _ => 1 : ℕ → ℕ) i) +
      (∑ t in Finset.Icc 1 1, con_lengths (fun _ _ => (0 : ℚ)) (fun _ _ => (0 : ℚ)) 2
        (4 - get_forward_offset (fun _ => 1) 0 - get_reverse_offset (fun _ => 1) 0 2) t) ≤ 4 :=
  ⟨⟨by norm_num, by norm_num⟩,
   (C6_lengths_bound (fun _ _ => (0 : ℚ)) (fun _ _ => (0 : ℚ)) (fun _ => 1) 4 2
     (by norm_num) (fun i _ => le_refl 1) (by norm_num)).2⟩

/-- Claim C9: for `N ≥ 2` the traceback writes the DP's global optimum
(the maximum of the final cumulative table over the `A` alignment
positions) into slot `N` of the recognizer-scores output, one past the
`N` per-recognizer scores. -/
theorem C9_optimum_slot (S gsc : ℕ → ℕ → α) (N A : ℕ) (hN : 2 ≤ N)
    (hA : 1 ≤ A) :
    (∀ j < A, alignments S gsc (N - 1) j ≤ rec_scores S gsc N A N) ∧
    (∃ j, j < A ∧ alignments S gsc (N - 1) j = rec_scores S gsc N A N) := by
  have hsl : rec_scores S gsc N A N =
      alignments S gsc (N - 1) (tb_index S gsc N A) := by
    rw [rec_scores, if_pos rfl]
  constructor
  · intro j hj
    rw [hsl]
    exact max_index_ge _ A j hj
  · exact ⟨tb_index S gsc N A, max_index_lt _ A hA, by rw [hsl]⟩

/-- Witness for C9 at `N = 2`, `A = 1` with concrete rational scores. -/
theorem C9_optimum_slot_witness :
    (2 ≤ 2 ∧ 1 ≤ 1) ∧
    ((∀ j < 1, alignments (fun i j => ((i + j : ℕ) : ℚ)) (fun c g => ((c + g : ℕ) : ℚ)) 1 j ≤
        rec_scores (fun i j => ((i + j : ℕ) : ℚ)) (fun c g => ((c + g : ℕ) : ℚ)) 2 1 2) ∧
      (∃ j, j < 1 ∧
        alignments (fun i j => ((i + j : ℕ) : ℚ)) (fun c g => ((c + g : ℕ) : ℚ)) 1 j =
          rec_scores (fun i j => ((i + j : ℕ) : ℚ)) (fun c g => ((c + g : ℕ) : ℚ)) 2 1 2)) :=
  ⟨⟨by norm_num, by norm_num⟩,
   C9_optimum_slot (fun i j => ((i + j : ℕ) : ℚ)) (fun c g => ((c + g : ℕ) : ℚ)) 2 1
     (by norm_num) (by norm_num)⟩

/-! ## RecognizerScorer: `fill_matrix` and the `N = 1` shortcut -/

/-- One arm of `fill_matrix`'s switch: the contribution of the sequence
character `c` against global matrix column `col` of the flattened
recognizer matrix `pssm`. The switch maps A/a to base column 0, G/g to
1, C/c to 2, T/t to 3, and any other character falls through and
contributes nothing. -/
def base_contrib (pssm : ℕ → α) (col : ℕ) (c : Char) : α :=
  if c = 'A' ∨ c = 'a' then pssm (col * 4)
  else if c = 'G' ∨ c = 'g' then pssm (col * 4 + 1)
  else if c = 'C' ∨ c = 'c' then pssm (col * 4 + 2)
  else if c = 'T' ∨ c = 't' then pssm (col * 4 + 3)
  else 0

/-- Reading the sequence at an index (out-of-range reads, which the
in-range loops never perform, yield a character outside A/C/G/T). -/
def seq_at (seq : List Char) (i : ℕ) : Char := seq.getD i '-'

/-- The inner accumulation loop of `fill_matrix`: score of a recognizer
whose columns start at global column `forward_offset`, placed at
sequence position `j`, after the first `k` columns. -/
def fill_score (seq : List Char) (pssm : ℕ → α) (forward_offset j : ℕ) : ℕ → α
  | 0 => 0
  | k + 1 => fill_score seq pssm forward_offset j k +
      base_contrib pssm (forward_offset + k) (seq_at seq (j + k))

/-- `score_matrix[i * num_alignments + r]` as written by `fill_matrix`:
recognizer `i` placed at sequence position `r + forward_offset(i)`
(the stored index is offset-normalized by subtracting
`forward_offset(i)`), summed over its `cols i` columns. -/
def score_matrix_entry (seq : List Char) (pssm : ℕ → α) (cols : ℕ → ℕ)
    (i r : ℕ) : α :=
  fill_score seq pssm (get_forward_offset cols i)
    (r + get_forward_offset cols i) (cols i)

/-- The `num_rec == 1` branch of `py_calculate`: writes the arg-max of
row 0 of the score matrix into `con_lengths[0]`, the score there into
`rec_scores[0]`, and 0 into `con_scores[0]`.  Returned as the triple
(con_lengths[0], rec_scores[0], con_scores[0]). -/
def py_calculate_single (seq : List Char) (pssm : ℕ → α) (cols : ℕ → ℕ)
    (L : ℕ) : ℕ × α × α :=
  let A := L - get_forward_offset cols 0 - get_reverse_offset cols 0 1
  let idx := max_index (fun r => score_matrix_entry seq pssm cols 0 r) A
  (idx, score_matrix_entry seq pssm cols 0 idx, 0)

/-- Claim C1: with exactly one recognizer the computation reports, in
the first connector-length slot, an in-range arg-max position of the
single recognizer's score vector; the first recognizer score is the
score at that position; and the connector score is exactly 0. -/
theorem C1_single_recognizer (seq : List Char) (pssm : ℕ → α)
    (cols : ℕ → ℕ) (L : ℕ)
    (hA : 1 ≤ L - get_forward_offset cols 0 - get_reverse_offset cols 0 1) :
    (py_calculate_single seq pssm cols L).1 <
        L - get_forward_offset cols 0 - get_reverse_offset cols 0 1 ∧
    (∀ r < L - get_forward_offset cols 0 - get_reverse_offset cols 0 1,
      score_matrix_entry seq pssm cols 0 r ≤
        score_matrix_entry seq pssm cols 0 (py_calculate_single seq pssm cols L).1) ∧
    (py_calculate_single seq pssm cols L).2.1 =
      score_matrix_entry seq pssm cols 0 (py_calculate_single seq pssm cols L).1 ∧
    (py_calculate_single seq pssm cols L).2.2 = 0 := by
  refine ⟨max_index_lt _ _ hA, ?_, rfl, rfl⟩
  intro r hr
  exact max_index_ge (fun r => score_matrix_entry seq pssm cols 0 r) _ r hr

/-- Witness for C1 on the sequence "AC" with a single width-1
recognizer whose matrix column is the identity on indices. -/
theorem C1_single_recognizer_witness :
    (1 ≤ 2 - get_forward_offset (fun _ => 1) 0 - get_reverse_offset (fun _ => 1) 0 1) ∧
    ((py_calculate_single (['A', 'C'] : List Char) (fun n => (n : ℚ)) (fun _ => 1) 2).2.2 = 0) :=
  ⟨by norm_num [get_forward_offset, get_reverse_offset],
   (C1_single_recognizer (['A', 'C'] : List Char) (fun n => (n : ℚ)) (fun _ => 1) 2
     (by norm_num [get_forward_offset, get_reverse_offset])).2.2.2⟩

/-- Claim C10: `fill_matrix` maps bases to matrix columns in the order
A, G, C, T (case-insensitively), so the width-by-4 block must carry G
in the second column and C in the third; any other character falls
through the switch and contributes exactly 0; and a position's score is
the sum of these per-column contributions. -/
theorem C10_base_order (pssm : ℕ → α) (col : ℕ) :
    base_contrib pssm col 'A' = pssm (col * 4) ∧
    base_contrib pssm col 'a' = pssm (col * 4) ∧
    base_contrib pssm col 'G' = pssm (col * 4 + 1) ∧
    base_contrib pssm col 'g' = pssm (col * 4 + 1) ∧
    base_contrib pssm col 'C' = pssm (col * 4 + 2) ∧
    base_contrib pssm col 'c' = pssm (col * 4 + 2) ∧
    base_contrib pssm col 'T' = pssm (col * 4 + 3) ∧
    base_contrib pssm col 't' = pssm (col * 4 + 3) ∧
    (∀ ch : Char, ch ∉ (['A', 'a', 'G', 'g', 'C', 'c', 'T', 't'] : List Char) →
      base_contrib pssm col ch = 0) ∧
    (∀ (seq : List Char) (fo j w : ℕ), fill_score seq pssm fo j w =
      ∑ k in Finset.range w, base_contrib pssm (fo + k) (seq_at seq (j + k))) := by
  refine ⟨by simp [base_contrib], by simp [base_contrib], by simp [base_contrib],
    by simp [base_contrib], by simp [base_contrib], by simp [base_contrib],
    by simp [base_contrib], by simp [base_contrib], ?_, ?_⟩
  · intro ch h
    simp only [List.mem_cons, List.not_mem_nil, or_false, not_or] at h
    obtain ⟨h1, h2, h3, h4, h5, h6, h7, h8⟩ := h
    rw [base_contrib, if_neg (by tauto), if_neg (by tauto), if_neg (by tauto),
      if_neg (by tauto)]
  · intro seq fo j w
    induction w with
    | zero => simp [fill_score]
    | succ k ih => rw [fill_score, ih, Finset.sum_range_succ]

/-- Witness for C10: the fall-through character 'N' contributes 0, and
the mapping picks the G column. -/
theorem C10_base_order_witness :
    ('N' ∉ (['A', 'a', 'G', 'g', 'C', 'c', 'T', 't'] : List Char) ∧
      base_contrib (fun n => (n : ℚ)) 2 'N' = 0) ∧
    base_contrib (fun n => (n : ℚ)) 2 'g' = ((2 * 4 + 1 : ℕ) : ℚ) :=
  ⟨⟨by decide,
    (C10_base_order (fun n => (n : ℚ)) 2).2.2.2.2.2.2.2.2.1 'N' (by decide)⟩,
   (C10_base_order (fun n => (n : ℚ)) 2).2.2.1⟩

/-! ## ScoreMath: `get_score` and the precomputed-variant correction -/

/-- Modelled from the spec: the process-wide `NUMERATORS` lookup table
comes from `_constants.h`, which is not under src/. Per spec section
4.1 it supplies precomputed log-binomial building blocks, read here as
`NUMERATORS[k] = log2((k+1)!)`, so that the difference of three entries
indexed `x - 1`, `k - 1`, `x - k - 1` is `log2 C(x, k)`. -/
noncomputable def NUMERATORS (k : ℕ) : ℝ :=
  Real.logb 2 ((Nat.factorial (k + 1) : ℝ))

/-- `get_score` from the C source: the statistical branch
(`is_precomputed == false`) takes `log2(numerator / denominator)` with
the per-connector mean at `arr[2c]` and sigma at `arr[2c+1]`; the
precomputed branch takes `log2` of the table entry at
`arr[c * max_length + gap]` minus the bracketed combinatorial
correction built from `NUMERATORS` differences. -/
noncomputable def get_score (cdf : ℝ → ℝ → ℝ → ℝ) (arr : ℕ → ℝ)
    (dna_length effective_length num_rec gap_size max_length curr_conn : ℕ)
    (is_precomputed : Bool) : ℝ :=
  if is_precomputed = false then
    Real.logb 2 (get_numerator cdf dna_length (gap_size : ℝ)
        (arr (curr_conn * 2)) (arr (curr_conn * 2 + 1)) /
      get_denominator (gap_size + 1) num_rec effective_length)
  else
    Real.logb 2 (arr (curr_conn * max_length + gap_size)) -
      ((NUMERATORS (effective_length - (gap_size + 1) - 1) -
        NUMERATORS (num_rec - 1 - 1) -
        NUMERATORS (effective_length - (gap_size + 1) - (num_rec - 1) - 1)) -
       (NUMERATORS (effective_length - 1) -
        NUMERATORS (num_rec - 1) -
        NUMERATORS (effective_length - num_rec - 1)))

/-- The statistical layout of `con_matrices`: entry `2c` is connector
`c`'s mean, entry `2c + 1` its standard deviation. -/
def stat_params (mu sigma : ℕ → ℝ) (n : ℕ) : ℝ :=
  if n % 2 = 0 then mu (n / 2) else sigma (n / 2)

/-- `log2` of a binomial coefficient as a difference of log-factorials. -/
theorem logb_choose (n k : ℕ) (hk : k ≤ n) :
    Real.logb 2 ((Nat.choose n k : ℝ)) =
      Real.logb 2 ((Nat.factorial n : ℝ)) -
        Real.logb 2 ((Nat.factorial k : ℝ)) -
        Real.logb 2 ((Nat.factorial (n - k) : ℝ)) := by
  have h := Nat.choose_mul_factorial_mul_factorial hk
  have hc : ((Nat.choose n k : ℝ)) * (Nat.factorial k : ℝ) *
      (Nat.factorial (n - k) : ℝ) = (Nat.factorial n : ℝ) := by
    exact_mod_cast congrArg (fun m : ℕ => (m : ℝ)) h
  have h1 : ((Nat.choose n k : ℝ)) ≠ 0 :=
    Nat.cast_ne_zero.mpr (Nat.choose_pos hk).ne'
  have h2 : ((Nat.factorial k : ℝ)) ≠ 0 :=
    Nat.cast_ne_zero.mpr (Nat.factorial_ne_zero k)
  have h3 : ((Nat.factorial (n - k) : ℝ)) ≠ 0 :=
    Nat.cast_ne_zero.mpr (Nat.factorial_ne_zero (n - k))
  rw [← hc, Real.logb_mul (mul_ne_zero h1 h2) h3, Real.logb_mul h1 h2]
  ring

/-- Claim C8: on mathematically equivalent inputs — a lookup table
whose entry at `c * max_length + gap` is exactly the statistical
numerator for the same mean and sigma — the statistical and precomputed
variants of `get_score` return the same log-odds value (on the feasible
gap range, with `sigma ≠ 0` and neither binomial hitting the overflow
guard); and a DP run using either of two pointwise-equal connector
scorers reports the same optimum. -/
theorem C8_variant_equivalence (cdf : ℝ → ℝ → ℝ → ℝ) (mu sigma : ℕ → ℝ)
    (arr_pre : ℕ → ℝ)
    (dna_length effective_length num_rec gap_size max_length curr_conn : ℕ)
    (hN : 2 ≤ num_rec)
    (hd : gap_size + 1 + num_rec ≤ effective_length)
    (hb1 : binGo 1 1 (effective_length - (gap_size + 1)) (num_rec - 1) ≠ none)
    (hb2 : binGo 1 1 effective_length num_rec ≠ none)
    (hsig : sigma curr_conn ≠ 0)
    (harr : arr_pre (curr_conn * max_length + gap_size) =
      get_numerator cdf dna_length (gap_size : ℝ) (mu curr_conn) (sigma curr_conn)) :
    get_score cdf (stat_params mu sigma) dna_length effective_length num_rec
        gap_size max_length curr_conn false =
      get_score cdf arr_pre dna_length effective_length num_rec gap_size
        max_length curr_conn true ∧
    (∀ (S g1 g2 : ℕ → ℕ → ℝ) (NN A : ℕ), (∀ c gap, g1 c gap = g2 c gap) →
      rec_scores S g1 NN A NN = rec_scores S g2 NN A NN) := by
  constructor
  · have hm : stat_params mu sigma (curr_conn * 2) = mu curr_conn := by
      rw [stat_params, if_pos (by omega)]
      congr 1
      omega
    have hs2 : stat_params mu sigma (curr_conn * 2 + 1) = sigma curr_conn := by
      rw [stat_params, if_neg (by omega)]
      congr 1
      omega
    have hnum := get_numerator_pos cdf dna_length (gap_size : ℝ)
      (mu curr_conn) (sigma curr_conn) hsig
    have hk1 : num_rec - 1 ≤ effective_length - (gap_size + 1) := by omega
    have hk2 : num_rec ≤ effective_length := by omega
    have hc1 : (0 : ℝ) <
        ((Nat.choose (effective_length - (gap_size + 1)) (num_rec - 1) : ℝ)) := by
      exact_mod_cast Nat.choose_pos hk1
    have hc2 : (0 : ℝ) < ((Nat.choose effective_length num_rec : ℝ)) := by
      exact_mod_cast Nat.choose_pos hk2
    have hden : get_denominator (gap_size + 1) num_rec effective_length =
        ((Nat.choose (effective_length - (gap_size + 1)) (num_rec - 1) : ℝ)) /
          ((Nat.choose effective_length num_rec : ℝ)) := by
      rw [get_denominator, if_pos ⟨by omega, by push_cast; omega⟩,
        bin_eq_choose _ _ hk1 hb1, bin_eq_choose _ _ hk2 hb2]
    have hdpos : (0 : ℝ) <
        get_denominator (gap_size + 1) num_rec effective_length := by
      rw [hden]
      exact div_pos hc1 hc2
    have i1 : effective_length - (gap_size + 1) - 1 + 1 =
        effective_length - (gap_size + 1) := by omega
    have i2 : num_rec - 1 - 1 + 1 = num_rec - 1 := by omega
    have i3 : effective_length - (gap_size + 1) - (num_rec - 1) - 1 + 1 =
        effective_length - (gap_size + 1) - (num_rec - 1) := by omega
    have i4 : effective_length - 1 + 1 = effective_length := by omega
    have i5 : num_rec - 1 + 1 = num_rec := by omega
    have i6 : effective_length - num_rec - 1 + 1 = effective_length - num_rec := by
      omega
    have hch1 := logb_choose (effective_length - (gap_size + 1)) (num_rec - 1) hk1
    have hch2 := logb_choose effective_length num_rec hk2
    simp only [get_score]
    rw [if_pos trivial, if_neg (show ¬(true = false) by decide), hm, hs2, harr,
      Real.logb_div hnum.ne' hdpos.ne', hden,
      Real.logb_div hc1.ne' hc2.ne', hch1, hch2]
    simp only [NUMERATORS]
    rw [i1, i2, i3, i4, i5, i6]
  · intro S g1 g2 NN A h
    have hg : g1 = g2 := funext fun c => funext fun gap => h c gap
    rw [hg]

/-- Witness for C8 at `effective_length = 5`, `num_rec = 2`,
`gap_size = 1`, mean 0 and sigma 1, with the lookup table derived from
the same parameters. -/
theorem C8_variant_equivalence_witness :
    ((1 : ℝ) ≠ 0 ∧ 1 + 1 + 2 ≤ 5) ∧
    get_score (fun _ _ _ => (0 : ℝ)) (stat_params (fun _ => (0 : ℝ)) (fun _ => (1 : ℝ)))
        7 5 2 1 3 0 false =
      get_score (fun _ _ _ => (0 : ℝ))
        (fun _ => get_numerator (fun _ _ _ => (0 : ℝ)) 7 ((1 : ℕ) : ℝ) 0 1)
        7 5 2 1 3 0 true :=
  ⟨⟨by norm_num, by norm_num⟩,
   (C8_variant_equivalence (fun _ _ _ => (0 : ℝ)) (fun _ => (0 : ℝ)) (fun _ => (1 : ℝ))
      (fun _ => get_numerator (fun _ _ _ => (0 : ℝ)) 7 ((1 : ℕ) : ℝ) 0 1)
      7 5 2 1 3 0 (by norm_num) (by norm_num) (by decide) (by decide)
      (by norm_num) rfl).1⟩

end Multiplacement
